import Mathlib

/-!
Verification of the Nudgebot task dispatch and deduplication engine,
against the task definitions in `examples/project_a/tasks/__init__.py`
and the engine contract (Task Runner state machine, Dedup Ledger,
Dispatcher, periodic scheduler) that those definitions are built on.
The engine itself is not in the repository snapshot, so the engine is
modelled from the specification; the task-definition code (reviewer
selection in `SetReviewerWhenMovedToRFR`, recipient collection in
`DailyReport.run`) is embedded from the source directly.
-/

namespace Nudgebot

/-- Terminal states of one Task Runner invocation
(spec 4.4: MATCHED, EVALUATED, then one of these four). -/
inductive Outcome
  | SKIPPED_CONDITION
  | SKIPPED_DUPLICATE
  | EXECUTED
  | FAILED
deriving DecidableEq, Repr

/-- An artifact key is a `(task_name, artifact_value)` pair (spec 3, ArtifactKey). -/
abbrev ArtifactKey := String × String

/-- Modelled from the spec: the Dedup Ledger, a persisted collection of
artifact keys already executed (spec 4.5); the ledger code is not in the
repository snapshot. Rows are append-only, so a list suffices. -/
abbrev Ledger := List ArtifactKey

/-- Result of condition evaluation together with scope resolution:
the scope can have vanished (ScopeNotFound), or the predicate can be
false or true (spec 4.2, 7). -/
inductive CondResult
  | scopeNotFound
  | condFalse
  | condTrue
deriving DecidableEq, Repr

/-- Modelled from the spec: one Task Runner invocation context (spec 4.4).
`cond` is the outcome of scope resolution plus condition evaluation,
`keys` the artifact values returned by the Artifact Extractor,
`actionOk` whether the action returns without an exception, and
`writeCompletes` whether the atomic ledger write is not interrupted. -/
structure Invocation where
  cond : CondResult
  keys : List String
  actionOk : Bool
  writeCompletes : Bool
deriving DecidableEq, Repr

/-- Modelled from the spec: `has_any(keys)` of the Dedup Ledger (spec 4.5):
true when any of the given artifact values for this task is already present. -/
def hasAny (ledger : Ledger) (task : String) (keys : List String) : Bool :=
  keys.any fun k => decide ((task, k) ∈ ledger)

/-- Modelled from the spec: `record_all(keys, executed_at)` of the Dedup
Ledger (spec 4.5): one atomic append of every extracted key for this task. -/
def recordAll (ledger : Ledger) (task : String) (keys : List String) : Ledger :=
  ledger ++ keys.map fun k => (task, k)

/-- Observable result of one Task Runner invocation: the terminal outcome
(`none` when the process stops inside the ledger write, so no terminal
state is reached), the ledger afterwards, and whether the action was
invoked at all. -/
structure RunResult where
  outcome : Option Outcome
  ledger : Ledger
  actionInvoked : Bool
deriving DecidableEq, Repr

/-- Modelled from the spec: the Task Runner state machine for a single
invocation (spec 4.4). ScopeNotFound is treated as condition-not-met
(spec 4.2, 7); a false condition is terminal with no ledger write; a
present key is terminal SKIPPED_DUPLICATE with no side effect and no
write; an action exception is terminal FAILED with no write; a
successful action is followed by the atomic ledger append, and an
interrupted write leaves the ledger untouched. -/
def runInvocation (task : String) (ledger : Ledger) (inv : Invocation) : RunResult :=
  match inv.cond with
  | .scopeNotFound => ⟨some .SKIPPED_CONDITION, ledger, false⟩
  | .condFalse => ⟨some .SKIPPED_CONDITION, ledger, false⟩
  | .condTrue =>
    if hasAny ledger task inv.keys then ⟨some .SKIPPED_DUPLICATE, ledger, false⟩
    else if inv.actionOk then
      if inv.writeCompletes then ⟨some .EXECUTED, recordAll ledger task inv.keys, true⟩
      else ⟨none, ledger, true⟩
    else ⟨some .FAILED, ledger, true⟩

/-- Number of invocations, in a sequence threaded through the ledger, that
reach EXECUTED while their key set contains the artifact value `K`. -/
def executedCount (task : String) (K : String) (ledger : Ledger) :
    List Invocation → Nat
  | [] => 0
  | inv :: rest =>
    let r := runInvocation task ledger inv
    (if K ∈ inv.keys ∧ r.outcome = some .EXECUTED then 1 else 0) +
      executedCount task K r.ledger rest

theorem mem_ledger_runInvocation {task : String} {ledger : Ledger} {inv : Invocation}
    {key : ArtifactKey} (h : key ∈ ledger) :
    key ∈ (runInvocation task ledger inv).ledger := by
  cases hc : inv.cond <;> simp only [runInvocation, hc]
  · exact h
  · exact h
  · by_cases hd : hasAny ledger task inv.keys
    · simp [hd, h]
    · by_cases ho : inv.actionOk
      · by_cases hw : inv.writeCompletes
        · simp only [hd, Bool.false_eq_true, if_false, ho, if_true, hw]
          exact List.mem_append_left _ h
        · simp [hd, ho, hw, h]
      · simp [hd, ho, h]

theorem hasAny_of_mem {ledger : Ledger} {task K : String} {keys : List String}
    (hmem : (task, K) ∈ ledger) (hK : K ∈ keys) :
    hasAny ledger task keys = true := by
  simp only [hasAny, List.any_eq_true, decide_eq_true_eq]
  exact ⟨K, hK, hmem⟩

theorem not_executed_of_mem {task : String} {ledger : Ledger} {inv : Invocation}
    {K : String} (hmem : (task, K) ∈ ledger) (hK : K ∈ inv.keys) :
    (runInvocation task ledger inv).outcome ≠ some .EXECUTED := by
  cases hc : inv.cond <;> simp only [runInvocation, hc]
  · simp
  · simp
  · rw [hasAny_of_mem hmem hK]
    simp

theorem mem_of_executed {task : String} {ledger : Ledger} {inv : Invocation}
    {K : String} (hex : (runInvocation task ledger inv).outcome = some .EXECUTED)
    (hK : K ∈ inv.keys) :
    (task, K) ∈ (runInvocation task ledger inv).ledger := by
  cases hc : inv.cond <;> simp only [runInvocation, hc] at hex ⊢
  · simp at hex
  · simp at hex
  · by_cases hd : hasAny ledger task inv.keys
    · simp [hd] at hex
    · by_cases ho : inv.actionOk
      · by_cases hw : inv.writeCompletes
        · simp only [hd, Bool.false_eq_true, if_false, ho, if_true, hw]
          simp only [recordAll, List.mem_append, List.mem_map]
          exact Or.inr ⟨K, hK, rfl⟩
        · simp [hd, ho, hw] at hex
      · simp [hd, ho] at hex

theorem executedCount_eq_zero_of_mem {task K : String} {ledger : Ledger}
    (invs : List Invocation) (hmem : (task, K) ∈ ledger) :
    executedCount task K ledger invs = 0 := by
  induction invs generalizing ledger with
  | nil => rfl
  | cons inv rest ih =>
    simp only [executedCount]
    rw [if_neg fun hcon => not_executed_of_mem hmem hcon.1 hcon.2, Nat.zero_add]
    exact ih (mem_ledger_runInvocation hmem)

theorem executedCount_le_one (task K : String) (ledger : Ledger)
    (invs : List Invocation) :
    executedCount task K ledger invs ≤ 1 := by
  induction invs generalizing ledger with
  | nil => exact Nat.zero_le 1
  | cons inv rest ih =>
    simp only [executedCount]
    by_cases h : K ∈ inv.keys ∧ (runInvocation task ledger inv).outcome = some .EXECUTED
    · rw [if_pos h, executedCount_eq_zero_of_mem rest (mem_of_executed h.2 h.1)]
    · rw [if_neg h, Nat.zero_add]
      exact ih _

/-- C1: once the artifact value `K` is recorded in the ledger for task
`task`, any later invocation of that task that reaches artifact extraction
with `K` among its keys terminates in SKIPPED_DUPLICATE, with the action
not invoked and the ledger unchanged; and across any sequence of
invocations threaded through the ledger, at most one invocation whose key
set contains `K` reaches EXECUTED. -/
theorem c1_at_most_once (task K : String) (ledger : Ledger) (inv : Invocation)
    (hmem : (task, K) ∈ ledger) (hK : K ∈ inv.keys) (hc : inv.cond = .condTrue) :
    (runInvocation task ledger inv).outcome = some .SKIPPED_DUPLICATE ∧
    (runInvocation task ledger inv).ledger = ledger ∧
    (runInvocation task ledger inv).actionInvoked = false ∧
    ∀ (l0 : Ledger) (invs : List Invocation), executedCount task K l0 invs ≤ 1 := by
  have hd := hasAny_of_mem hmem hK
  refine ⟨?_, ?_, ?_, fun l0 invs => executedCount_le_one task K l0 invs⟩ <;>
    simp [runInvocation, hc, hd]

theorem c1_at_most_once_witness :
    ("T", "a") ∈ ([("T", "a")] : Ledger) ∧
    (runInvocation "T" [("T", "a")]
      ⟨.condTrue, ["a"], true, true⟩).outcome = some .SKIPPED_DUPLICATE :=
  ⟨by simp, (c1_at_most_once "T" "a" [("T", "a")] ⟨.condTrue, ["a"], true, true⟩
      (by simp) (by simp) rfl).1⟩

/-- C2: for an invocation that passed the dedup check (no key present) and
whose action succeeds, a completed ledger write leaves every extracted key
in the ledger and an interrupted write leaves none of them; in either case
no reachable ledger holds a proper non-empty subset of the invocation keys. -/
theorem c2_atomic_multikey (task : String) (ledger : Ledger) (inv : Invocation)
    (hc : inv.cond = .condTrue) (hd : hasAny ledger task inv.keys = false)
    (hok : inv.actionOk = true) :
    (inv.writeCompletes = true →
      ∀ k ∈ inv.keys, (task, k) ∈ (runInvocation task ledger inv).ledger) ∧
    (inv.writeCompletes = false →
      ∀ k ∈ inv.keys, (task, k) ∉ (runInvocation task ledger inv).ledger) ∧
    ((∀ k ∈ inv.keys, (task, k) ∈ (runInvocation task ledger inv).ledger) ∨
      (∀ k ∈ inv.keys, (task, k) ∉ (runInvocation task ledger inv).ledger)) := by
  have hfresh : ∀ k ∈ inv.keys, (task, k) ∉ ledger := by
    intro k hk hmemk
    rw [hasAny_of_mem hmemk hk] at hd
    exact Bool.noConfusion hd
  have h1 : inv.writeCompletes = true →
      ∀ k ∈ inv.keys, (task, k) ∈ (runInvocation task ledger inv).ledger := by
    intro hw k hk
    simp only [runInvocation, hc, hd, Bool.false_eq_true, if_false, hok, if_true, hw]
    simp only [recordAll, List.mem_append, List.mem_map]
    exact Or.inr ⟨k, hk, rfl⟩
  have h2 : inv.writeCompletes = false →
      ∀ k ∈ inv.keys, (task, k) ∉ (runInvocation task ledger inv).ledger := by
    intro hw k hk
    simp only [runInvocation, hc, hd, Bool.false_eq_true, if_false, hok, if_true, hw]
    exact hfresh k hk
  refine ⟨h1, h2, ?_⟩
  cases hw : inv.writeCompletes with
  | true => exact Or.inl (h1 hw)
  | false => exact Or.inr (h2 hw)

theorem c2_atomic_multikey_witness :
    hasAny [] "T" ["a", "b"] = false ∧
    ∀ k ∈ ["a", "b"],
      ("T", k) ∈ (runInvocation "T" [] ⟨.condTrue, ["a", "b"], true, true⟩).ledger :=
  ⟨rfl, (c2_atomic_multikey "T" [] ⟨.condTrue, ["a", "b"], true, true⟩
      rfl rfl rfl).1 rfl⟩

/-- C3: an invocation whose action raises terminates in FAILED with the
ledger unchanged, and a subsequent invocation with the same key set whose
condition holds and whose action succeeds reaches EXECUTED. -/
theorem c3_failure_leaves_no_trace (task : String) (ledger : Ledger)
    (inv inv2 : Invocation)
    (hc : inv.cond = .condTrue) (hd : hasAny ledger task inv.keys = false)
    (hfail : inv.actionOk = false)
    (hc2 : inv2.cond = .condTrue) (hkeys : inv2.keys = inv.keys)
    (hok2 : inv2.actionOk = true) (hw2 : inv2.writeCompletes = true) :
    (runInvocation task ledger inv).outcome = some .FAILED ∧
    (runInvocation task ledger inv).ledger = ledger ∧
    (runInvocation task (runInvocation task ledger inv).ledger inv2).outcome
      = some .EXECUTED := by
  have hrun1 : runInvocation task ledger inv = ⟨some .FAILED, ledger, true⟩ := by
    simp [runInvocation, hc, hd, hfail]
  refine ⟨by rw [hrun1], by rw [hrun1], ?_⟩
  rw [hrun1]
  have hd2 : hasAny ledger task inv2.keys = false := by rw [hkeys]; exact hd
  simp [runInvocation, hc2, hd2, hok2, hw2]

theorem c3_failure_leaves_no_trace_witness :
    hasAny [] "T" ["a"] = false ∧
    (runInvocation "T" [] ⟨.condTrue, ["a"], false, true⟩).outcome = some .FAILED ∧
    (runInvocation "T" (runInvocation "T" [] ⟨.condTrue, ["a"], false, true⟩).ledger
      ⟨.condTrue, ["a"], true, true⟩).outcome = some .EXECUTED :=
  ⟨rfl,
    (c3_failure_leaves_no_trace "T" [] ⟨.condTrue, ["a"], false, true⟩
      ⟨.condTrue, ["a"], true, true⟩ rfl rfl rfl rfl rfl rfl rfl).1,
    (c3_failure_leaves_no_trace "T" [] ⟨.condTrue, ["a"], false, true⟩
      ⟨.condTrue, ["a"], true, true⟩ rfl rfl rfl rfl rfl rfl rfl).2.2⟩

/-- C4: an invocation whose condition evaluates to false terminates in
SKIPPED_CONDITION: the ledger is unchanged and the action is never
invoked, whatever the artifact keys are. -/
theorem c4_condition_gating (task : String) (ledger : Ledger) (inv : Invocation)
    (hc : inv.cond = .condFalse) :
    (runInvocation task ledger inv).outcome = some .SKIPPED_CONDITION ∧
    (runInvocation task ledger inv).ledger = ledger ∧
    (runInvocation task ledger inv).actionInvoked = false := by
  simp [runInvocation, hc]

theorem c4_condition_gating_witness :
    (Invocation.mk .condFalse ["a"] true true).cond = .condFalse ∧
    (runInvocation "T" [] ⟨.condFalse, ["a"], true, true⟩).outcome
      = some .SKIPPED_CONDITION :=
  ⟨rfl, (c4_condition_gating "T" [] ⟨.condFalse, ["a"], true, true⟩ rfl).1⟩

/-- C8: an invocation whose scope resolution fails with ScopeNotFound
behaves exactly like one whose condition is false: it terminates normally
in SKIPPED_CONDITION, the action is not invoked, and the ledger is
unchanged. -/
theorem c8_scope_not_found (task : String) (ledger : Ledger) (inv : Invocation)
    (hc : inv.cond = .scopeNotFound) :
    runInvocation task ledger inv = ⟨some .SKIPPED_CONDITION, ledger, false⟩ ∧
    runInvocation task ledger inv
      = runInvocation task ledger { inv with cond := .condFalse } := by
  constructor <;> simp [runInvocation, hc]

theorem c8_scope_not_found_witness :
    (Invocation.mk .scopeNotFound ["a"] true true).cond = .scopeNotFound ∧
    runInvocation "T" [] ⟨.scopeNotFound, ["a"], true, true⟩
      = ⟨some .SKIPPED_CONDITION, [], false⟩ :=
  ⟨rfl, (c8_scope_not_found "T" [] ⟨.scopeNotFound, ["a"], true, true⟩ rfl).1⟩

/-- Modelled from the spec: artifact scoping for a TaskDefinition with
run_once = false (spec 4.3): the engine additionally scopes every artifact
value by the id of the triggering event; with run_once = true the values
are used as extracted. The scoping code is not in the repository snapshot. -/
def scopedKeys (runOnce : Bool) (eventId : String) (keys : List String) : List String :=
  if runOnce then keys else keys.map fun k => eventId ++ ":" ++ k

/-- Modelled from the spec: a Task Runner invocation whose artifact keys
are scoped according to the run_once flag before ledger lookup and
recording. -/
def runScoped (task : String) (runOnce : Bool) (eventId : String)
    (ledger : Ledger) (inv : Invocation) : RunResult :=
  runInvocation task ledger { inv with keys := scopedKeys runOnce eventId inv.keys }

theorem scoped_value_injective {e1 e2 v : String} (h : e1 ++ ":" ++ v = e2 ++ ":" ++ v) :
    e1 = e2 := by
  have hd : e1.data ++ ":".data ++ v.data = e2.data ++ ":".data ++ v.data := by
    have := congrArg String.data h
    simpa [String.data_append] using this
  exact String.ext (List.append_cancel_right (List.append_cancel_right hd))

/-- C5: with run_once = false the artifact values are scoped by the event
id before every ledger lookup and recording, so for two distinct events
carrying the same logical artifact value: the first delivery of each event
executes, the duplicate delivery of each event is deduplicated, and any
sequence of invocations reaches EXECUTED at most once per scoped key. -/
theorem c5_run_once_false_event_scoping (task e1 e2 v : String) (hne : e1 ≠ e2) :
    let inv : Invocation := ⟨.condTrue, [v], true, true⟩
    let r1 := runScoped task false e1 [] inv
    let r2 := runScoped task false e1 r1.ledger inv
    let r3 := runScoped task false e2 r2.ledger inv
    let r4 := runScoped task false e2 r3.ledger inv
    r1.outcome = some .EXECUTED ∧ r2.outcome = some .SKIPPED_DUPLICATE ∧
    r3.outcome = some .EXECUTED ∧ r4.outcome = some .SKIPPED_DUPLICATE ∧
    ∀ (l0 : Ledger) (invs : List Invocation),
      executedCount task (e1 ++ ":" ++ v) l0 invs ≤ 1 := by
  intro inv r1 r2 r3 r4
  have hne21 : e2 ++ ":" ++ v ≠ e1 ++ ":" ++ v :=
    fun hc => hne (scoped_value_injective hc).symm
  have h1 : r1 = ⟨some .EXECUTED, [(task, e1 ++ ":" ++ v)], true⟩ := by
    simp [r1, runScoped, runInvocation, scopedKeys, hasAny, recordAll]
  have h2 : r2 = ⟨some .SKIPPED_DUPLICATE, [(task, e1 ++ ":" ++ v)], false⟩ := by
    simp [r2, h1, runScoped, runInvocation, scopedKeys, hasAny]
  have h3 : r3 = ⟨some .EXECUTED,
      [(task, e1 ++ ":" ++ v), (task, e2 ++ ":" ++ v)], true⟩ := by
    simp [r3, h2, runScoped, runInvocation, scopedKeys, hasAny, recordAll,
      Prod.ext_iff, hne21]
  have h4 : r4.outcome = some .SKIPPED_DUPLICATE := by
    simp [r4, h3, runScoped, runInvocation, scopedKeys, hasAny]
  exact ⟨by rw [h1], by rw [h2], by rw [h3], h4,
    fun l0 invs => executedCount_le_one task (e1 ++ ":" ++ v) l0 invs⟩

theorem c5_run_once_false_event_scoping_witness :
    ("ev1" : String) ≠ "ev2" ∧
    (runScoped "T" false "ev2"
      (runScoped "T" false "ev1"
        (runScoped "T" false "ev1" [] ⟨.condTrue, ["v"], true, true⟩).ledger
        ⟨.condTrue, ["v"], true, true⟩).ledger
      ⟨.condTrue, ["v"], true, true⟩).outcome = some .EXECUTED :=
  ⟨by decide, (c5_run_once_false_event_scoping "T" "ev1" "ev2" "v" (by decide)).2.2.1⟩

/-- Hour of a wall-clock time given in minutes since an epoch midnight. -/
def hourOf (t : Nat) : Nat := t / 60 % 24

/-- The schedule of DailyReport (source line 158): `crontab(hour=12)`, a
celery crontab whose hour field is fixed to 12 and whose other fields are
wildcards; a tick time matches exactly when its hour equals 12. -/
def dailyReportCrontabMatches (t : Nat) : Bool := hourOf t == 12

/-- Modelled from the spec: the scheduler state for one periodic task —
whether an invocation of it is currently active, that is, has not yet
reached a terminal state (spec 5). -/
structure SchedState where
  running : Bool
deriving DecidableEq, Repr

/-- A scheduler happening: a tick at a wall-clock minute, or the active
invocation of the periodic task reaching a terminal state. -/
inductive SchedEvent
  | tick (t : Nat)
  | finish
deriving DecidableEq, Repr

/-- Modelled from the spec: one step of the periodic scheduler for one
periodic task (spec 4.1, 5): a tick starts a Task Runner invocation
exactly when the cron expression matches the tick time and no previous
invocation of this task is still active; the Bool reports whether an
invocation was started. -/
def schedStep (s : SchedState) (e : SchedEvent) : SchedState × Bool :=
  match e with
  | .tick t =>
    if dailyReportCrontabMatches t && !s.running then (⟨true⟩, true)
    else (s, false)
  | .finish => (⟨false⟩, false)

/-- How many Task Runner invocations a trace of scheduler happenings starts. -/
def fireCount (s : SchedState) : List SchedEvent → Nat
  | [] => 0
  | e :: es =>
    let r := schedStep s e
    (if r.2 then 1 else 0) + fireCount r.1 es

/-- C6: a tick whose time does not match the DailyReport cron expression
starts no invocation and leaves the scheduler unchanged, in every
scheduler state, idle or busy; two ticks 23 hours apart start the task at
most once; and while an invocation of the periodic task is still active,
a tick never starts a second one. -/
theorem c6_daily_report_schedule (s : SchedState) (t t2 : Nat)
    (hmiss : dailyReportCrontabMatches t2 = false) :
    ((schedStep s (.tick t2)).2 = false ∧ (schedStep s (.tick t2)).1 = s) ∧
    (∀ (s0 : SchedState) (u : Nat),
      fireCount s0 [.tick u, .tick (u + 23 * 60)] ≤ 1) ∧
    (∀ s1 : SchedState, s1.running = true → (schedStep s1 (.tick t)).2 = false) := by
  refine ⟨⟨by simp [schedStep, hmiss], by simp [schedStep, hmiss]⟩, ?_, ?_⟩
  · intro s0 u
    have harith : ¬(u / 60 % 24 = 12 ∧ (u + 23 * 60) / 60 % 24 = 12) := by omega
    simp only [fireCount, schedStep, dailyReportCrontabMatches, hourOf]
    split_ifs <;> simp_all
  · intro s1 hrun
    simp [schedStep, hrun]

theorem c6_daily_report_schedule_witness :
    dailyReportCrontabMatches 0 = false ∧
    (schedStep ⟨false⟩ (.tick 0)).2 = false ∧
    (SchedState.mk true).running = true ∧
    (schedStep ⟨true⟩ (.tick 720)).2 = false ∧
    fireCount ⟨false⟩ [.tick 720, .tick (720 + 23 * 60)] ≤ 1 :=
  ⟨rfl,
    (c6_daily_report_schedule ⟨false⟩ 720 0 rfl).1.1,
    rfl,
    (c6_daily_report_schedule ⟨false⟩ 720 0 rfl).2.2 ⟨true⟩ rfl,
    (c6_daily_report_schedule ⟨false⟩ 720 0 rfl).2.1 ⟨false⟩ 720⟩

/-- Modelled from the spec: a registered TaskDefinition as the Dispatcher
sees it — its unique name and the (endpoint source, scope type) pair it
listens on (spec 3, 4.1). -/
structure TaskReg where
  name : String
  source : String
  scopeType : String
deriving DecidableEq, Repr

/-- An inbound event: its source endpoint, kind tag, scope reference, and
the entity type its scope reference resolves to (spec 3). -/
structure Event where
  source : String
  kind : String
  scopeRef : String
  scopeType : String
deriving DecidableEq, Repr

/-- Modelled from the spec: the registered tasks matching an event — those
whose endpoint source and scope type equal the event fields (spec 4.1). -/
def matchingTasks (registry : List TaskReg) (ev : Event) : List TaskReg :=
  registry.filter fun td => td.source == ev.source && td.scopeType == ev.scopeType

/-- Modelled from the spec: `Dispatcher.on_event` (spec 4.1) — one Task
Runner invocation per matching registered task, threaded through the
ledger; `behavior` supplies each matched task with its invocation context.
Returns the final ledger and the run results; it is a total function, so
dispatch always returns normally. -/
def onEvent (registry : List TaskReg) (behavior : TaskReg → Invocation)
    (ledger : Ledger) (ev : Event) : Ledger × List RunResult :=
  (matchingTasks registry ev).foldl
    (fun acc td =>
      let r := runInvocation td.name acc.1 (behavior td)
      (r.ledger, acc.2 ++ [r]))
    (ledger, [])

/-- C7: dispatching an event whose (source, scope type) pair matches no
registered task produces zero Task Runner invocations and leaves the
ledger untouched, returning normally. -/
theorem c7_unmatched_events (registry : List TaskReg)
    (behavior : TaskReg → Invocation) (ledger : Ledger) (ev : Event)
    (h : ∀ td ∈ registry, ¬(td.source = ev.source ∧ td.scopeType = ev.scopeType)) :
    onEvent registry behavior ledger ev = (ledger, []) := by
  have hm : matchingTasks registry ev = [] := by
    refine List.filter_eq_nil_iff.mpr fun td htd => ?_
    simp only [Bool.and_eq_true, beq_iff_eq]
    exact fun hcon => h td htd ⟨hcon.1, hcon.2⟩
  simp [onEvent, hm]

theorem c7_unmatched_events_witness :
    (∀ td ∈ [TaskReg.mk "t1" "github" "pull_request"],
      ¬(td.source = "irc" ∧ td.scopeType = "message")) ∧
    onEvent [⟨"t1", "github", "pull_request"⟩]
      (fun _ => ⟨.condTrue, [], true, true⟩) []
      ⟨"irc", "k", "r", "message"⟩ = ([], []) :=
  ⟨by decide,
    c7_unmatched_events [⟨"t1", "github", "pull_request"⟩]
      (fun _ => ⟨.condTrue, [], true, true⟩) [] ⟨"irc", "k", "r", "message"⟩
      (by decide)⟩

/-- A repository entry of the project configuration
(`CurrentProject().config.config.github.repositories`): its name and its
maintainers list. -/
structure RepoData where
  name : String
  maintainers : List String
deriving DecidableEq, Repr

/-- A configured user (`CurrentProject().config.users`): github login,
email address and IRC nick. -/
structure UserData where
  github_login : String
  email : String
  irc_nick : String
deriving DecidableEq, Repr

/-- Modelled from the spec: `User.get_user(github_login=...)` of
`nudgebot.config.user`, a module not in the repository snapshot: the
configured user whose github login equals the argument, or none. The
`github` attribute the tasks read back from the result is the github
login itself. -/
def getUser (users : List UserData) (login : String) : Option UserData :=
  users.find? fun u => u.github_login == login

namespace SetReviewerWhenMovedToRFR

/-- `condition` of SetReviewerWhenMovedToRFR (source lines 29-36): the
title tags contain RFR and no reviewer has been assigned. -/
def condition (title_tags reviewers : List String) : Bool :=
  title_tags.contains "RFR" && reviewers.isEmpty

/-- `get_artifacts` (source lines 49-50): the artifact values are the
title tags of the pull request statistics. -/
def get_artifacts (title_tags : List String) : List String := title_tags

/-- `get_data` (source lines 38-47). The generator expression
`next(repo for repo ... if repo.name == ...)` is the first configuration
entry with the repository name (none models the StopIteration it raises
when there is no such entry); `random.choice(maintainers)` is the element
at an arbitrary index `i` of the maintainers list (none models the
IndexError on an empty list); the owner contact falls back to the plain
owner login when no user record matches. -/
def get_data (repos : List RepoData) (users : List UserData)
    (repository owner : String) (i : Nat) :
    Option ((UserData ⊕ String) × Option UserData) :=
  match repos.find? fun r => r.name == repository with
  | none => none
  | some repos_data =>
    match repos_data.maintainers[i]? with
    | none => none
    | some reviewer =>
      let owner_contact : UserData ⊕ String :=
        match getUser users owner with
        | some u => Sum.inl u
        | none => Sum.inr owner
      some (owner_contact, getUser users reviewer)

/-- `run` (source lines 52-56): the github login handed to
`add_reviewers`, or none when the invocation raises (no matching
repository entry, empty maintainers list, or a chosen reviewer with no
configured user record, which makes `reviewer_contact.github` fail). -/
def run (repos : List RepoData) (users : List UserData)
    (repository owner : String) (i : Nat) : Option String :=
  match get_data repos users repository owner i with
  | none => none
  | some (_, none) => none
  | some (_, some reviewer_contact) => some reviewer_contact.github_login

end SetReviewerWhenMovedToRFR

/-- C9: whenever the SetReviewerWhenMovedToRFR action completes and adds a
reviewer, that reviewer is a member of the maintainers list configured for
the repository of the pull request; and the selection is nondeterministic:
a configuration with two maintainers admits two random draws that add two
different reviewers. -/
theorem c9_reviewer_is_maintainer (repos : List RepoData) (users : List UserData)
    (repository owner : String) (i : Nat) (r : String)
    (h : SetReviewerWhenMovedToRFR.run repos users repository owner i = some r) :
    (∃ rd, (repos.find? fun x => x.name == repository) = some rd ∧
      r ∈ rd.maintainers) ∧
    (SetReviewerWhenMovedToRFR.run [⟨"repo", ["alice", "bob"]⟩]
        [⟨"alice", "a@x.org", "alice_irc"⟩, ⟨"bob", "b@x.org", "bob_irc"⟩]
        "repo" "carol" 0 = some "alice" ∧
      SetReviewerWhenMovedToRFR.run [⟨"repo", ["alice", "bob"]⟩]
        [⟨"alice", "a@x.org", "alice_irc"⟩, ⟨"bob", "b@x.org", "bob_irc"⟩]
        "repo" "carol" 1 = some "bob") := by
  refine ⟨?_, by constructor <;> rfl⟩
  unfold SetReviewerWhenMovedToRFR.run SetReviewerWhenMovedToRFR.get_data at h
  cases hfind : repos.find? fun x => x.name == repository with
  | none => simp [hfind] at h
  | some rd =>
    simp only [hfind] at h
    cases hget : rd.maintainers[i]? with
    | none => simp [hget] at h
    | some reviewer =>
      simp only [hget] at h
      cases huser : getUser users reviewer with
      | none => simp [huser] at h
      | some rc =>
        simp only [huser, Option.some.injEq] at h
        have hrc : rc.github_login = reviewer := by
          have := List.find?_some huser
          exact eq_of_beq this
        refine ⟨rd, rfl, ?_⟩
        rw [← h, hrc]
        exact List.get?_mem (by simpa [List.get?_eq_getElem?] using hget)

theorem c9_reviewer_is_maintainer_witness :
    SetReviewerWhenMovedToRFR.run [⟨"repo", ["alice", "bob"]⟩]
      [⟨"alice", "a@x.org", "alice_irc"⟩, ⟨"bob", "b@x.org", "bob_irc"⟩]
      "repo" "carol" 0 = some "alice" ∧
    ∃ rd, (([⟨"repo", ["alice", "bob"]⟩] : List RepoData).find?
        fun x => x.name == "repo") = some rd ∧ "alice" ∈ rd.maintainers :=
  ⟨rfl,
    (c9_reviewer_is_maintainer [⟨"repo", ["alice", "bob"]⟩]
      [⟨"alice", "a@x.org", "alice_irc"⟩, ⟨"bob", "b@x.org", "bob_irc"⟩]
      "repo" "carol" 0 "alice" rfl).1⟩

/-- Python set insertion on a list representation: add the element unless
it is already present. -/
def setAdd (x : String) (s : List String) : List String :=
  if x ∈ s then s else x :: s

theorem mem_setAdd {x e : String} {s : List String} :
    e ∈ setAdd x s ↔ e = x ∨ e ∈ s := by
  unfold setAdd
  by_cases h : x ∈ s
  · simp only [if_pos h]
    exact ⟨Or.inr, fun hc => hc.elim (fun he => he ▸ h) id⟩
  · simp [if_neg h]

theorem nodup_setAdd {x : String} {s : List String} (h : s.Nodup) :
    (setAdd x s).Nodup := by
  unfold setAdd
  by_cases hx : x ∈ s
  · simpa [if_pos hx] using h
  · simpa [if_neg hx, List.nodup_cons] using ⟨hx, h⟩

namespace DailyReport

/-- The innermost loop of `DailyReport.run` (source lines 180-182): for
one maintainer login, add the email of every configured user whose github
login equals it to the accumulating set. -/
def addUserEmails (users : List UserData) (maintainer : String)
    (acc : List String) : List String :=
  users.foldl
    (fun acc user_data =>
      if user_data.github_login == maintainer then setAdd user_data.email acc
      else acc)
    acc

/-- The middle loop (source lines 179-182): the innermost loop once per
maintainer of one repository entry. -/
def addMaintainerEmails (users : List UserData) (maintainers : List String)
    (acc : List String) : List String :=
  maintainers.foldl (fun acc maintainer => addUserEmails users maintainer acc) acc

/-- `maintainers_emails` of `DailyReport.run` (source lines 177-182): the
Python set built by the three nested loops over repositories, their
maintainers and the configured users, represented as a duplicate-free
list. -/
def maintainers_emails (repos : List RepoData) (users : List UserData) :
    List String :=
  repos.foldl
    (fun acc repo_data => addMaintainerEmails users repo_data.maintainers acc) []

/-- The recipient list `list(maintainers_emails)` passed to `send_email`
(source line 184): the elements of the set. -/
def recipients (repos : List RepoData) (users : List UserData) : List String :=
  maintainers_emails repos users

theorem addUserEmails_cons (u : UserData) (us : List UserData) (m : String)
    (acc : List String) :
    addUserEmails (u :: us) m acc
      = addUserEmails us m
          (if u.github_login == m then setAdd u.email acc else acc) := rfl

theorem mem_addUserEmails {users : List UserData} {m : String}
    {acc : List String} {e : String} :
    e ∈ addUserEmails users m acc ↔
      e ∈ acc ∨ ∃ u ∈ users, u.github_login = m ∧ u.email = e := by
  induction users generalizing acc with
  | nil => simp [addUserEmails]
  | cons u us ih =>
    rw [addUserEmails_cons, ih]
    by_cases h : u.github_login = m
    · simp only [h, beq_self_eq_true, if_true, mem_setAdd, List.mem_cons]
      constructor
      · rintro ((rfl | he) | ⟨x, hx, hgl, he⟩)
        · exact Or.inr ⟨u, Or.inl rfl, h, rfl⟩
        · exact Or.inl he
        · exact Or.inr ⟨x, Or.inr hx, hgl, he⟩
      · rintro (he | ⟨x, (rfl | hx), hgl, he⟩)
        · exact Or.inl (Or.inr he)
        · exact Or.inl (Or.inl he.symm)
        · exact Or.inr ⟨x, hx, hgl, he⟩
    · have hbe : (u.github_login == m) = false := by
        simpa using h
      simp only [hbe, Bool.false_eq_true, if_false, List.mem_cons]
      constructor
      · rintro (he | ⟨x, hx, hgl, he⟩)
        · exact Or.inl he
        · exact Or.inr ⟨x, Or.inr hx, hgl, he⟩
      · rintro (he | ⟨x, (rfl | hx), hgl, he⟩)
        · exact Or.inl he
        · exact absurd hgl h
        · exact Or.inr ⟨x, hx, hgl, he⟩

theorem nodup_addUserEmails {users : List UserData} {m : String}
    {acc : List String} (h : acc.Nodup) :
    (addUserEmails users m acc).Nodup := by
  induction users generalizing acc with
  | nil => exact h
  | cons u us ih =>
    rw [addUserEmails_cons]
    by_cases hbe : u.github_login == m
    · simp only [hbe, if_true]
      exact ih (nodup_setAdd h)
    · simp only [Bool.not_eq_true] at hbe
      simp only [hbe, Bool.false_eq_true, if_false]
      exact ih h

theorem addMaintainerEmails_cons (users : List UserData) (m : String)
    (ms : List String) (acc : List String) :
    addMaintainerEmails users (m :: ms) acc
      = addMaintainerEmails users ms (addUserEmails users m acc) := rfl

theorem mem_addMaintainerEmails {users : List UserData}
    {maintainers : List String} {acc : List String} {e : String} :
    e ∈ addMaintainerEmails users maintainers acc ↔
      e ∈ acc ∨ ∃ m ∈ maintainers, ∃ u ∈ users,
        u.github_login = m ∧ u.email = e := by
  induction maintainers generalizing acc with
  | nil => simp [addMaintainerEmails]
  | cons m ms ih =>
    rw [addMaintainerEmails_cons, ih, mem_addUserEmails]
    constructor
    · rintro ((he | ⟨u, hu, hgl, he⟩) | ⟨x, hx, u, hu, hgl, he⟩)
      · exact Or.inl he
      · exact Or.inr ⟨m, List.mem_cons_self m ms, u, hu, hgl, he⟩
      · exact Or.inr ⟨x, List.mem_cons_of_mem m hx, u, hu, hgl, he⟩
    · rintro (he | ⟨x, hx, u, hu, hgl, he⟩)
      · exact Or.inl (Or.inl he)
      · rcases List.mem_cons.mp hx with rfl | hx2
        · exact Or.inl (Or.inr ⟨u, hu, hgl, he⟩)
        · exact Or.inr ⟨x, hx2, u, hu, hgl, he⟩

theorem nodup_addMaintainerEmails {users : List UserData}
    {maintainers : List String} {acc : List String} (h : acc.Nodup) :
    (addMaintainerEmails users maintainers acc).Nodup := by
  induction maintainers generalizing acc with
  | nil => exact h
  | cons m ms ih =>
    rw [addMaintainerEmails_cons]
    exact ih (nodup_addUserEmails h)

theorem mem_foldl_repos {users : List UserData} {repos : List RepoData}
    {acc : List String} {e : String} :
    (e ∈ repos.foldl
        (fun acc repo_data => addMaintainerEmails users repo_data.maintainers acc)
        acc) ↔
      e ∈ acc ∨ ∃ rd ∈ repos, ∃ u ∈ users,
        u.github_login ∈ rd.maintainers ∧ u.email = e := by
  induction repos generalizing acc with
  | nil => simp
  | cons rd rds ih =>
    rw [List.foldl_cons, ih, mem_addMaintainerEmails]
    constructor
    · rintro ((he | ⟨m, hm, u, hu, hgl, he⟩) | ⟨x, hx, u, hu, hgl, he⟩)
      · exact Or.inl he
      · exact Or.inr ⟨rd, List.mem_cons_self rd rds, u, hu, hgl ▸ hm, he⟩
      · exact Or.inr ⟨x, List.mem_cons_of_mem rd hx, u, hu, hgl, he⟩
    · rintro (he | ⟨x, hx, u, hu, hgl, he⟩)
      · exact Or.inl (Or.inl he)
      · rcases List.mem_cons.mp hx with rfl | hx2
        · exact Or.inl (Or.inr ⟨u.github_login, hgl, u, hu, rfl, he⟩)
        · exact Or.inr ⟨x, hx2, u, hu, hgl, he⟩

theorem mem_maintainers_emails {repos : List RepoData} {users : List UserData}
    {e : String} :
    e ∈ maintainers_emails repos users ↔
      ∃ rd ∈ repos, ∃ u ∈ users, u.github_login ∈ rd.maintainers ∧ u.email = e := by
  rw [maintainers_emails, mem_foldl_repos]
  simp

theorem nodup_maintainers_emails {repos : List RepoData}
    {users : List UserData} :
    (maintainers_emails repos users).Nodup := by
  rw [maintainers_emails]
  have hgen : ∀ (rds : List RepoData) (acc : List String), acc.Nodup →
      (rds.foldl
        (fun acc repo_data => addMaintainerEmails users repo_data.maintainers acc)
        acc).Nodup := by
    intro rds
    induction rds with
    | nil => exact fun acc h => h
    | cons rd rest ih =>
      intro acc h
      exact ih _ (nodup_addMaintainerEmails h)
  exact hgen repos [] List.nodup_nil

end DailyReport

/-- C10: the recipient list DailyReport passes to send_email has no
duplicate address, and an address is in it exactly when it is the email of
a configured user whose github login appears in the maintainers list of at
least one configured repository. -/
theorem c10_daily_report_recipients (repos : List RepoData)
    (users : List UserData) (e : String) :
    (DailyReport.recipients repos users).Nodup ∧
    (e ∈ DailyReport.recipients repos users ↔
      ∃ u ∈ users, u.email = e ∧
        ∃ rd ∈ repos, u.github_login ∈ rd.maintainers) := by
  refine ⟨DailyReport.nodup_maintainers_emails, ?_⟩
  rw [DailyReport.recipients, DailyReport.mem_maintainers_emails]
  constructor
  · rintro ⟨rd, hrd, u, hu, hgl, he⟩
    exact ⟨u, hu, he, rd, hrd, hgl⟩
  · rintro ⟨u, hu, he, rd, hrd, hgl⟩
    exact ⟨rd, hrd, u, hu, hgl, he⟩

end Nudgebot
